import Mathlib

/-!
Shallow embedding of the tabulation utilities of `webscraping-parliament.py`
(`count_member`, `cross_count_member`, `cross_distinct_key`) and proofs of
their specified properties.

A Python dict with string keys and string values is modelled as an
association list; `d[k]` is `List.lookup`, which returns `none` when the key
is absent, modelling the `KeyError` Python raises.  Functions that can raise
return `Option`.  Python's stable `sorted` is modelled by
`List.insertionSort`, which is also stable.
-/

/-- A scraped record: one Python dictionary mapping field names to values. -/
abbrev Record := List (String × String)

/-- The list `[d[key] for d in dict_list]`: `none` when some record lacks
`key`, modelling the `KeyError` the comprehension raises in Python. -/
def lookupAll (key : String) : List Record → Option (List String)
  | [] => some []
  | d :: ds =>
    match d.lookup key, lookupAll key ds with
    | some v, some vs => some (v :: vs)
    | _, _ => none

/-- Python `sorted` on a list of strings (ascending, lexicographic). -/
def sortedStr (l : List String) : List String :=
  l.insertionSort (· ≤ ·)

/-- Python `sorted(pairs, key=lambda x: x[1], reverse=True)`: stable sort of
(value, count) pairs, descending by count. -/
def sortDescBySnd (l : List (String × Nat)) : List (String × Nat) :=
  l.insertionSort fun a b => b.2 ≤ a.2

/-- The count accumulated by the inner loop of `count_member`: the number of
records whose `key` field equals `v`. -/
def memberCount (key : String) (dict_list : List Record) (v : String) : Nat :=
  (dict_list.filter fun d => d.lookup key == some v).length

/-- `count_member(key, dict_list, sort_keys)` from the source: maps each
distinct value of `key` to its occurrence count; insertion order is ascending
by value when `sort_keys` is true (the default), otherwise the result is
re-sorted descending by count. -/
def count_member (key : String) (dict_list : List Record) (sort_keys : Bool := true) :
    Option (List (String × Nat)) :=
  match lookupAll key dict_list with
  | none => none
  | some vals =>
    let unique_values := sortedStr vals.dedup
    let results := unique_values.map fun v => (v, memberCount key dict_list v)
    if sort_keys then some results else some (sortDescBySnd results)

/-- The count of the innermost loop of `cross_count_member`: records whose
`key2` field is `v2` and whose `key1` field is `v1` (conjuncts in source
order). -/
def crossCount (key1 key2 : String) (dict_list : List Record) (v1 v2 : String) : Nat :=
  (dict_list.filter fun d => d.lookup key2 == some v2 && d.lookup key1 == some v1).length

/-- One iteration of the loop `for unique_value_2 in unique_values_2` in
`cross_count_member`: append `(v2, count)` when the count is positive, and
when `sort_keys` is false re-sort the accumulated dict descending by count
(the source performs this sort inside the loop). -/
def innerStep (key1 key2 : String) (dict_list : List Record) (v1 : String) (sort_keys : Bool)
    (cross_count : List (String × Nat)) (v2 : String) : List (String × Nat) :=
  let count := crossCount key1 key2 dict_list v1 v2
  let cc := if 0 < count then cross_count ++ [(v2, count)] else cross_count
  if sort_keys then cc else sortDescBySnd cc

/-- `cross_count_member(key1, key2, dict_list, sort_keys)` from the source.
The assignment `results[unique_value_1] = cross_count` sits inside the inner
loop, so when `unique_values_2` is empty no outer key is ever inserted. -/
def cross_count_member (key1 key2 : String) (dict_list : List Record)
    (sort_keys : Bool := true) : Option (List (String × List (String × Nat))) :=
  match lookupAll key1 dict_list, lookupAll key2 dict_list with
  | some vals1, some vals2 =>
    let unique_values_1 := sortedStr vals1.dedup
    let unique_values_2 := sortedStr vals2.dedup
    if unique_values_2.isEmpty then some []
    else some (unique_values_1.map fun v1 =>
      (v1, unique_values_2.foldl (innerStep key1 key2 dict_list v1 sort_keys) []))
  | _, _ => none

/-- The rows of `cross_distinct_key`, one per distinct `key1` value: the
sorted de-duplicated `key2` values of the records matching that `key1`
value.  `none` when a matching record lacks `key2`. -/
def distinctRows (key1 key2 : String) (dict_list : List Record) :
    List String → Option (List (String × List String))
  | [] => some []
  | v1 :: rest =>
    match lookupAll key2 (dict_list.filter fun d => d.lookup key1 == some v1),
        distinctRows key1 key2 dict_list rest with
    | some vs2, some tail => some ((v1, sortedStr vs2.dedup) :: tail)
    | _, _ => none

/-- `cross_distinct_key(key1, key2, dict_list)` from the source: maps each
distinct `key1` value (ascending) to the sorted list of distinct `key2`
values among the records sharing that `key1` value. -/
def cross_distinct_key (key1 key2 : String) (dict_list : List Record) :
    Option (List (String × List String)) :=
  match lookupAll key1 dict_list with
  | none => none
  | some vals1 => distinctRows key1 key2 dict_list (sortedStr vals1.dedup)

/-- Every record of the collection has the field `key`. -/
def HasField (dict_list : List Record) (key : String) : Prop :=
  ∀ d ∈ dict_list, (d.lookup key).isSome

/-! ### Helper lemmas about `lookupAll` -/

theorem lookupAll_isSome {key : String} {l : List Record} (h : HasField l key) :
    ∃ vals, lookupAll key l = some vals := by
  induction l with
  | nil => exact ⟨[], rfl⟩
  | cons d ds ih =>
    obtain ⟨v, hv⟩ := Option.isSome_iff_exists.mp (h d (List.mem_cons_self d ds))
    obtain ⟨vs, hvs⟩ := ih fun e he => h e (List.mem_cons_of_mem d he)
    exact ⟨v :: vs, by simp [lookupAll, hv, hvs]⟩

theorem lookupAll_eq_none {key : String} {l : List Record}
    (h : ∃ d ∈ l, d.lookup key = none) : lookupAll key l = none := by
  induction l with
  | nil => simp at h
  | cons d ds ih =>
    obtain ⟨e, he, hnone⟩ := h
    rcases List.mem_cons.mp he with he | he
    · subst he; simp [lookupAll, hnone]
    · rw [lookupAll]
      rcases hall : lookupAll key ds with _ | vs
      · cases hk : d.lookup key <;> simp
      · rw [ih ⟨e, he, hnone⟩] at hall; cases hall

theorem lookupAll_length {key : String} {l : List Record} {vals : List String}
    (h : lookupAll key l = some vals) : vals.length = l.length := by
  induction l generalizing vals with
  | nil => simp [lookupAll] at h; simp [← h]
  | cons d ds ih =>
    rw [lookupAll] at h
    rcases hk : d.lookup key with _ | v <;> rw [hk] at h
    · cases h
    · rcases hall : lookupAll key ds with _ | vs <;> rw [hall] at h
      · cases h
      · cases h; simp [ih hall]

theorem lookupAll_count {key : String} {l : List Record} {vals : List String}
    (h : lookupAll key l = some vals) (v : String) :
    vals.count v = memberCount key l v := by
  induction l generalizing vals with
  | nil => simp [lookupAll] at h; subst h; simp [memberCount]
  | cons d ds ih =>
    rw [lookupAll] at h
    rcases hk : d.lookup key with _ | w <;> rw [hk] at h
    · cases h
    · rcases hall : lookupAll key ds with _ | vs <;> rw [hall] at h
      · cases h
      · cases h
        simp only [memberCount, List.filter_cons, hk]
        by_cases hw : w = v
        · subst hw
          simp [List.count_cons, ih hall, memberCount, Nat.add_comm]
        · have : ((some w : Option String) == some v) = false := by
            simp [hw]
          simp [List.count_cons, hw, this, ih hall, memberCount]

theorem lookupAll_forall {key : String} {l : List Record} {vals : List String}
    (h : lookupAll key l = some vals) :
    ∀ d ∈ l, ∃ v, d.lookup key = some v ∧ v ∈ vals := by
  induction l generalizing vals with
  | nil => simp
  | cons d ds ih =>
    rw [lookupAll] at h
    rcases hk : d.lookup key with _ | w <;> rw [hk] at h
    · cases h
    · rcases hall : lookupAll key ds with _ | vs <;> rw [hall] at h
      · cases h
      · cases h
        intro e he
        rcases List.mem_cons.mp he with he | he
        · exact ⟨w, by simp [he, hk]⟩
        · obtain ⟨v, hv, hmem⟩ := ih hall e he
          exact ⟨v, hv, List.mem_cons_of_mem _ hmem⟩

theorem lookupAll_mem_exists {key : String} {l : List Record} {vals : List String}
    (h : lookupAll key l = some vals) {v : String} (hv : v ∈ vals) :
    ∃ d ∈ l, d.lookup key = some v := by
  induction l generalizing vals with
  | nil => simp [lookupAll] at h; subst h; simp at hv
  | cons d ds ih =>
    rw [lookupAll] at h
    rcases hk : d.lookup key with _ | w <;> rw [hk] at h
    · cases h
    · rcases hall : lookupAll key ds with _ | vs <;> rw [hall] at h
      · cases h
      · cases h
        rcases List.mem_cons.mp hv with hv | hv
        · exact ⟨d, List.mem_cons_self d ds, by simp [hk, hv]⟩
        · obtain ⟨e, he, hev⟩ := ih hall hv
          exact ⟨e, List.mem_cons_of_mem d he, hev⟩

/-! ### Helper lemmas about the sorts -/

theorem sortedStr_perm (l : List String) : (sortedStr l).Perm l :=
  List.perm_insertionSort _ l

theorem mem_sortedStr {l : List String} {a : String} : a ∈ sortedStr l ↔ a ∈ l :=
  (sortedStr_perm l).mem_iff

theorem sortedStr_sorted (l : List String) : (sortedStr l).Pairwise (· ≤ ·) :=
  List.sorted_insertionSort _ l

theorem sortedStr_dedup_nodup (l : List String) : (sortedStr l.dedup).Nodup :=
  (sortedStr_perm l.dedup).nodup_iff.mpr (List.nodup_dedup l)

theorem sortedStr_dedup_lt (l : List String) : (sortedStr l.dedup).Pairwise (· < ·) :=
  List.Sorted.lt_of_le (sortedStr_sorted l.dedup) (sortedStr_dedup_nodup l)

theorem sortDescBySnd_perm (l : List (String × Nat)) : (sortDescBySnd l).Perm l :=
  List.perm_insertionSort _ l

theorem sortDescBySnd_sorted (l : List (String × Nat)) :
    (sortDescBySnd l).Pairwise fun a b => b.2 ≤ a.2 := by
  haveI : IsTotal (String × Nat) fun a b => b.2 ≤ a.2 := ⟨fun a b => Nat.le_total b.2 a.2⟩
  haveI : IsTrans (String × Nat) fun a b => b.2 ≤ a.2 :=
    ⟨fun _ _ _ h1 h2 => Nat.le_trans h2 h1⟩
  exact List.sorted_insertionSort _ l

/-! ### A counting partition lemma -/

theorem sum_map_count_of_subset :
    ∀ (u m : List String), u.Nodup → (∀ x ∈ m, x ∈ u) →
      (u.map fun v => m.count v).sum = m.length
  | [], m, _, hm => by
    have : m = [] := List.eq_nil_iff_forall_not_mem.mpr fun x hx => by simpa using hm x hx
    simp [this]
  | a :: u, m, hu, hm => by
    obtain ⟨ha, hu'⟩ := List.nodup_cons.mp hu
    have hcnt : ∀ v ∈ u, m.count v = (m.filter fun x => !(x == a)).count v := by
      intro v hv
      have hne : (!(v == a)) = true := by
        simp only [Bool.not_eq_true', beq_eq_false_iff_ne, ne_eq]
        intro hva; exact ha (hva ▸ hv)
      exact (List.count_filter (p := fun x => !(x == a)) (a := v) hne).symm
    have hsub : ∀ x ∈ m.filter fun x => !(x == a), x ∈ u := by
      intro x hx
      obtain ⟨hxm, hxa⟩ := List.mem_filter.mp hx
      rcases List.mem_cons.mp (hm x hxm) with h | h
      · simp [h] at hxa
      · exact h
    have ih := sum_map_count_of_subset u (m.filter fun x => !(x == a)) hu' hsub
    have hmap : (u.map fun v => m.count v)
        = u.map fun v => (m.filter fun x => !(x == a)).count v :=
      List.map_congr_left hcnt
    have hlen : m.length = m.count a + (m.filter fun x => !(x == a)).length := by
      have h1 := List.length_eq_length_filter_add (l := m) fun x => x == a
      have h2 : m.count a = (m.filter fun x => x == a).length := by
        rw [List.count_eq_countP, List.countP_eq_length_filter]
      rw [h2]; simpa using h1
    calc ((a :: u).map fun v => m.count v).sum
        = m.count a + (u.map fun v => m.count v).sum := by simp
      _ = m.count a + (m.filter fun x => !(x == a)).length := by rw [hmap, ih]
      _ = m.length := hlen.symm

/-! ### Characterizations of `count_member` -/

theorem count_member_true_eq {key : String} {l : List Record} {vals : List String}
    (h : lookupAll key l = some vals) :
    count_member key l true =
      some ((sortedStr vals.dedup).map fun v => (v, memberCount key l v)) := by
  simp [count_member, h]

theorem count_member_false_eq {key : String} {l : List Record} {vals : List String}
    (h : lookupAll key l = some vals) :
    count_member key l false =
      some (sortDescBySnd ((sortedStr vals.dedup).map fun v => (v, memberCount key l v))) := by
  simp [count_member, h]

/-! ### Claims about `count_member` -/

/-- C1: for every non-empty list of records in which every record has the
given field, the sum of the counts returned by `count_member` equals the
number of records, for both values of the ordering flag. -/
theorem count_member_sum_length (key : String) (l : List Record) (b : Bool)
    (hne : l ≠ []) (h : HasField l key) :
    ∃ res, count_member key l b = some res ∧ (res.map Prod.snd).sum = l.length := by
  obtain ⟨vals, hv⟩ := lookupAll_isSome h
  have hforall : ∀ x ∈ vals, x ∈ vals.dedup := fun x hx => List.mem_dedup.mpr hx
  have hsum : ((((sortedStr vals.dedup).map fun v => (v, memberCount key l v)).map Prod.snd).sum)
      = l.length := by
    rw [List.map_map]
    have hcomp : (Prod.snd ∘ fun v => (v, memberCount key l v))
        = fun v => memberCount key l v := rfl
    rw [hcomp]
    have hcong : ((sortedStr vals.dedup).map fun v => memberCount key l v)
        = (sortedStr vals.dedup).map fun v => vals.count v :=
      List.map_congr_left fun v _ => (lookupAll_count hv v).symm
    rw [hcong]
    have hperm : ((sortedStr vals.dedup).map fun v => vals.count v).Perm
        (vals.dedup.map fun v => vals.count v) := (sortedStr_perm _).map _
    rw [hperm.sum_eq, sum_map_count_of_subset vals.dedup vals (List.nodup_dedup vals) hforall]
    exact lookupAll_length hv
  cases b
  · refine ⟨_, count_member_false_eq hv, ?_⟩
    have hp := (sortDescBySnd_perm
      ((sortedStr vals.dedup).map fun v => (v, memberCount key l v))).map Prod.snd
    rw [hp.sum_eq]
    exact hsum
  · exact ⟨_, count_member_true_eq hv, hsum⟩

/-- C3: when every record has the field, the default flag yields keys in
strictly ascending order, and the alternate flag yields counts that are
non-increasing across the returned mapping's order. -/
theorem count_member_ordering (key : String) (l : List Record) (h : HasField l key) :
    (∀ res, count_member key l true = some res → res.Pairwise fun a b => a.1 < b.1) ∧
    (∀ res, count_member key l false = some res → res.Pairwise fun a b => b.2 ≤ a.2) := by
  obtain ⟨vals, hv⟩ := lookupAll_isSome h
  constructor
  · intro res hres
    rw [count_member_true_eq hv] at hres
    obtain rfl := Option.some.inj hres
    exact List.pairwise_map.mpr ((sortedStr_dedup_lt vals).imp fun hab => hab)
  · intro res hres
    rw [count_member_false_eq hv] at hres
    obtain rfl := Option.some.inj hres
    exact sortDescBySnd_sorted _

/-- C4: on the empty record collection all three utilities return an empty
mapping (a valid result, not an error), for any field names and flag. -/
theorem empty_collection_all_empty (key1 key2 : String) (b : Bool) :
    count_member key1 [] b = some [] ∧ cross_count_member key1 key2 [] b = some [] ∧
      cross_distinct_key key1 key2 [] = some [] := by
  refine ⟨?_, ?_, ?_⟩
  · cases b <;> simp [count_member, lookupAll, sortedStr, sortDescBySnd, List.insertionSort]
  · cases b <;> simp [cross_count_member, lookupAll, sortedStr, List.insertionSort]
  · simp [cross_distinct_key, distinctRows, lookupAll, sortedStr, List.insertionSort]

/-- C10: the ordering flag of `count_member` changes only the order of the
returned mapping, never its contents: the alternate-flag result is a
permutation of the default-flag result. -/
theorem count_member_flag_contents (key : String) (l : List Record)
    (res : List (String × Nat)) (h : count_member key l true = some res) :
    ∃ r, count_member key l false = some r ∧ r.Perm res := by
  rcases hv : lookupAll key l with _ | vals
  · simp [count_member, hv] at h
  · rw [count_member_true_eq hv] at h
    obtain rfl := Option.some.inj h
    exact ⟨_, count_member_false_eq hv, sortDescBySnd_perm _⟩

/-! ### The inner loop of `cross_count_member` -/

/-- The entry the inner loop contributes for secondary value `v2` (kept only
when the co-occurrence count is positive). -/
def innerEntry (key1 key2 : String) (dict_list : List Record) (v1 v2 : String) :
    Option (String × Nat) :=
  let c := crossCount key1 key2 dict_list v1 v2
  if 0 < c then some (v2, c) else none

theorem innerEntry_eq_some {key1 key2 : String} {dict_list : List Record} {v1 v2 : String}
    {x : String × Nat} (h : innerEntry key1 key2 dict_list v1 v2 = some x) :
    x = (v2, crossCount key1 key2 dict_list v1 v2)
      ∧ 0 < crossCount key1 key2 dict_list v1 v2 := by
  unfold innerEntry at h
  by_cases hc : 0 < crossCount key1 key2 dict_list v1 v2 <;> simp [hc] at h
  exact ⟨h.symm, hc⟩

theorem foldl_innerStep_true (key1 key2 : String) (dict_list : List Record) (v1 : String) :
    ∀ (u : List String) (acc : List (String × Nat)),
      u.foldl (innerStep key1 key2 dict_list v1 true) acc
        = acc ++ u.filterMap (innerEntry key1 key2 dict_list v1)
  | [], acc => by simp
  | v2 :: u, acc => by
    rw [List.foldl_cons, foldl_innerStep_true key1 key2 dict_list v1 u _]
    by_cases hc : 0 < crossCount key1 key2 dict_list v1 v2 <;>
      simp [innerStep, innerEntry, List.filterMap_cons, hc]

theorem foldl_innerStep_false_perm (key1 key2 : String) (dict_list : List Record) (v1 : String) :
    ∀ (u : List String) (acc : List (String × Nat)),
      (u.foldl (innerStep key1 key2 dict_list v1 false) acc).Perm
        (acc ++ u.filterMap (innerEntry key1 key2 dict_list v1))
  | [], acc => by simp
  | v2 :: u, acc => by
    rw [List.foldl_cons]
    refine (foldl_innerStep_false_perm key1 key2 dict_list v1 u _).trans ?_
    have hstep : (innerStep key1 key2 dict_list v1 false acc v2).Perm
        (acc ++ (innerEntry key1 key2 dict_list v1 v2).toList) := by
      by_cases hc : 0 < crossCount key1 key2 dict_list v1 v2
      · simpa [innerStep, innerEntry, hc] using
          sortDescBySnd_perm (acc ++ [(v2, crossCount key1 key2 dict_list v1 v2)])
      · simpa [innerStep, innerEntry, hc] using sortDescBySnd_perm acc
    have heq : (acc ++ (innerEntry key1 key2 dict_list v1 v2).toList)
        ++ u.filterMap (innerEntry key1 key2 dict_list v1)
        = acc ++ (v2 :: u).filterMap (innerEntry key1 key2 dict_list v1) := by
      rcases he : innerEntry key1 key2 dict_list v1 v2 with _ | x <;>
        simp [List.filterMap_cons, he]
    exact heq ▸ hstep.append_right _

theorem foldl_innerStep_false_sorted (key1 key2 : String) (dict_list : List Record)
    (v1 : String) :
    ∀ (u : List String) (acc : List (String × Nat)),
      (acc.Pairwise fun a b => b.2 ≤ a.2) →
      ((u.foldl (innerStep key1 key2 dict_list v1 false) acc).Pairwise fun a b => b.2 ≤ a.2)
  | [], _, h => h
  | v2 :: u, acc, _ => by
    rw [List.foldl_cons]
    exact foldl_innerStep_false_sorted key1 key2 dict_list v1 u _ (sortDescBySnd_sorted _)

theorem mem_filterMap_innerEntry {key1 key2 : String} {dict_list : List Record} {v1 : String}
    {u : List String} {v2 : String} {c : Nat} :
    (v2, c) ∈ u.filterMap (innerEntry key1 key2 dict_list v1)
      ↔ v2 ∈ u ∧ c = crossCount key1 key2 dict_list v1 v2 ∧ 0 < c := by
  rw [List.mem_filterMap]
  constructor
  · rintro ⟨a, ha, he⟩
    obtain ⟨hx, hc⟩ := innerEntry_eq_some he
    obtain ⟨h1, h2⟩ := Prod.mk.injEq _ _ _ _ ▸ hx
    subst h1; subst h2
    exact ⟨ha, rfl, hc⟩
  · rintro ⟨hu, rfl, hc⟩
    exact ⟨v2, hu, by simp [innerEntry, hc]⟩

theorem filterMap_innerEntry_sorted_fst (key1 key2 : String) (dict_list : List Record)
    (v1 : String) (u : List String) (hu : u.Pairwise (· < ·)) :
    (u.filterMap (innerEntry key1 key2 dict_list v1)).Pairwise fun a b => a.1 < b.1 := by
  rw [List.pairwise_filterMap]
  refine hu.imp ?_
  intro a b hab x hx y hy
  obtain ⟨hx1, _⟩ := innerEntry_eq_some (Option.mem_def.mp hx)
  obtain ⟨hy1, _⟩ := innerEntry_eq_some (Option.mem_def.mp hy)
  rw [hx1, hy1]
  exact hab

theorem crossCount_pos_mem {key1 key2 : String} {l : List Record} {v1 v2 : String}
    (h : 0 < crossCount key1 key2 l v1 v2) :
    ∃ d ∈ l, d.lookup key2 = some v2 ∧ d.lookup key1 = some v1 := by
  unfold crossCount at h
  rw [List.length_pos_iff_exists_mem] at h
  obtain ⟨d, hd⟩ := h
  obtain ⟨hdl, hp⟩ := List.mem_filter.mp hd
  rw [Bool.and_eq_true, beq_iff_eq, beq_iff_eq] at hp
  exact ⟨d, hdl, hp.1, hp.2⟩

theorem crossCount_le_memberCount (key1 key2 : String) (l : List Record) (v1 v2 : String) :
    crossCount key1 key2 l v1 v2 ≤ memberCount key1 l v1 := by
  unfold crossCount memberCount
  rw [← List.countP_eq_length_filter, ← List.countP_eq_length_filter]
  refine List.countP_mono_left fun d _ hp => ?_
  exact ((Bool.and_eq_true _ _ ▸ hp : _ ∧ _)).2

theorem cross_count_member_eq_of_ne {key1 key2 : String} {l : List Record}
    {vals1 vals2 : List String} (h1 : lookupAll key1 l = some vals1)
    (h2 : lookupAll key2 l = some vals2) (b : Bool) (hne : l ≠ []) :
    cross_count_member key1 key2 l b =
      some ((sortedStr vals1.dedup).map fun v1 =>
        (v1, (sortedStr vals2.dedup).foldl (innerStep key1 key2 l v1 b) [])) := by
  have hv2 : vals2 ≠ [] := by
    intro hnil
    have := lookupAll_length h2
    rw [hnil] at this
    exact hne (List.eq_nil_of_length_eq_zero this.symm)
  have hne2 : (sortedStr vals2.dedup).isEmpty = false := by
    rw [List.isEmpty_eq_false]
    intro hnil
    have hp : ([] : List String).Perm vals2.dedup := hnil ▸ sortedStr_perm vals2.dedup
    exact hv2 ((List.dedup_eq_nil vals2).mp hp.symm.eq_nil)
  simp [cross_count_member, h1, h2, hne2]

theorem mem_unique_iff {key : String} {l : List Record} {vals : List String}
    (h : lookupAll key l = some vals) (v : String) :
    v ∈ sortedStr vals.dedup ↔ ∃ d ∈ l, d.lookup key = some v := by
  rw [mem_sortedStr, List.mem_dedup]
  constructor
  · exact fun hv => lookupAll_mem_exists h hv
  · rintro ⟨d, hd, hdv⟩
    obtain ⟨w, hw, hmem⟩ := lookupAll_forall h d hd
    have hwv : w = v := Option.some.inj (hw.symm.trans hdv)
    exact hwv ▸ hmem

theorem mem_inner_iff {key1 key2 : String} {l : List Record} {v1 : String}
    {vals2 : List String} (hv2 : lookupAll key2 l = some vals2) (b : Bool)
    (v2 : String) (c : Nat) :
    ((v2, c) ∈ (sortedStr vals2.dedup).foldl (innerStep key1 key2 l v1 b) []
      ↔ c = crossCount key1 key2 l v1 v2 ∧ 0 < c) := by
  have hmem : (v2, c) ∈ (sortedStr vals2.dedup).filterMap (innerEntry key1 key2 l v1)
      ↔ c = crossCount key1 key2 l v1 v2 ∧ 0 < c := by
    rw [mem_filterMap_innerEntry]
    constructor
    · rintro ⟨_, rfl, hc⟩; exact ⟨rfl, hc⟩
    · rintro ⟨rfl, hc⟩
      obtain ⟨d, hd, hk2, _⟩ := crossCount_pos_mem hc
      obtain ⟨w, hw, hwmem⟩ := lookupAll_forall hv2 d hd
      have hwv : w = v2 := Option.some.inj (hw.symm.trans hk2)
      subst hwv
      exact ⟨mem_sortedStr.mpr (List.mem_dedup.mpr hwmem), rfl, hc⟩
  cases b
  · rw [(foldl_innerStep_false_perm key1 key2 l v1 _ []).mem_iff]
    simpa using hmem
  · rw [foldl_innerStep_true key1 key2 l v1 _ [], List.nil_append]
    exact hmem

/-- C5: for records having both fields, the outer mapping of
`cross_count_member` has exactly the distinct primary values as keys in
strictly ascending order, and each nested mapping contains exactly the
secondary values with positive co-occurrence count, mapped to that count. -/
theorem cross_count_member_structure (key1 key2 : String) (l : List Record) (b : Bool)
    (h1 : HasField l key1) (h2 : HasField l key2) :
    ∃ cres, cross_count_member key1 key2 l b = some cres ∧
      ((cres.map Prod.fst).Pairwise (· < ·)) ∧
      (∀ v1, v1 ∈ cres.map Prod.fst ↔ ∃ d ∈ l, d.lookup key1 = some v1) ∧
      (∀ v1 inner, (v1, inner) ∈ cres → ∀ v2 c,
        ((v2, c) ∈ inner ↔ c = crossCount key1 key2 l v1 v2 ∧ 0 < c)) := by
  obtain ⟨vals1, hv1⟩ := lookupAll_isSome h1
  obtain ⟨vals2, hv2⟩ := lookupAll_isSome h2
  by_cases hne : l = []
  · subst hne
    refine ⟨[], ?_, by simp, by simp, by simp⟩
    cases b <;> simp [cross_count_member, lookupAll, sortedStr, List.insertionSort]
  · refine ⟨_, cross_count_member_eq_of_ne hv1 hv2 b hne, ?_, ?_, ?_⟩
    · rw [List.map_map]
      have hid : (Prod.fst ∘ fun v1 =>
          (v1, (sortedStr vals2.dedup).foldl (innerStep key1 key2 l v1 b) []))
          = id := rfl
      rw [hid, List.map_id]
      exact sortedStr_dedup_lt vals1
    · intro v1
      rw [List.map_map]
      have hid : (Prod.fst ∘ fun v1 =>
          (v1, (sortedStr vals2.dedup).foldl (innerStep key1 key2 l v1 b) []))
          = id := rfl
      rw [hid, List.map_id]
      exact mem_unique_iff hv1 v1
    · intro v1 inner hin v2 c
      obtain ⟨a, _, hpair⟩ := List.mem_map.mp hin
      have ha1 : a = v1 := congrArg Prod.fst hpair
      subst ha1
      have hinner : (sortedStr vals2.dedup).foldl (innerStep key1 key2 l a b) [] = inner :=
        congrArg Prod.snd hpair
      rw [← hinner]
      exact mem_inner_iff hv2 b v2 c

/-- C6: each nested mapping of `cross_count_member` is strictly ascending by
secondary value under the default flag, and non-increasing by count under the
alternate flag. -/
theorem cross_count_member_inner_ordering (key1 key2 : String) (l : List Record)
    (h1 : HasField l key1) (h2 : HasField l key2) :
    (∀ cres, cross_count_member key1 key2 l true = some cres →
      ∀ p ∈ cres, p.2.Pairwise fun a b => a.1 < b.1) ∧
    (∀ cres, cross_count_member key1 key2 l false = some cres →
      ∀ p ∈ cres, p.2.Pairwise fun a b => b.2 ≤ a.2) := by
  obtain ⟨vals1, hv1⟩ := lookupAll_isSome h1
  obtain ⟨vals2, hv2⟩ := lookupAll_isSome h2
  by_cases hne : l = []
  · subst hne
    have hemp : ∀ g, cross_count_member key1 key2 ([] : List Record) g = some [] := by
      intro g; cases g <;> simp [cross_count_member, lookupAll, sortedStr, List.insertionSort]
    constructor <;> intro cres hres p hp
    · rw [hemp true] at hres
      obtain rfl := Option.some.inj hres
      simp at hp
    · rw [hemp false] at hres
      obtain rfl := Option.some.inj hres
      simp at hp
  · constructor <;> intro cres hres p hp
    · rw [cross_count_member_eq_of_ne hv1 hv2 true hne] at hres
      obtain rfl := Option.some.inj hres
      obtain ⟨a, _, rfl⟩ := List.mem_map.mp hp
      show ((sortedStr vals2.dedup).foldl (innerStep key1 key2 l a true) []).Pairwise
        fun x y => x.1 < y.1
      rw [foldl_innerStep_true key1 key2 l a _ [], List.nil_append]
      exact filterMap_innerEntry_sorted_fst key1 key2 l a _ (sortedStr_dedup_lt vals2)
    · rw [cross_count_member_eq_of_ne hv1 hv2 false hne] at hres
      obtain rfl := Option.some.inj hres
      obtain ⟨a, _, rfl⟩ := List.mem_map.mp hp
      exact foldl_innerStep_false_sorted key1 key2 l a _ [] List.Pairwise.nil

/-- C2: every count in a nested mapping of `cross_count_member` is at most
the single-key count that `count_member` assigns to the same primary value. -/
theorem cross_count_le_single (key1 key2 : String) (l : List Record)
    (h1 : HasField l key1) (h2 : HasField l key2)
    (cres : List (String × List (String × Nat))) (res : List (String × Nat))
    (hc : cross_count_member key1 key2 l true = some cres)
    (hm : count_member key1 l true = some res)
    (v1 : String) (inner : List (String × Nat)) (hin : (v1, inner) ∈ cres)
    (v2 : String) (c : Nat) (hvc : (v2, c) ∈ inner) :
    ∃ k, (v1, k) ∈ res ∧ c ≤ k := by
  obtain ⟨vals1, hv1⟩ := lookupAll_isSome h1
  obtain ⟨vals2, hv2⟩ := lookupAll_isSome h2
  by_cases hne : l = []
  · subst hne
    have hemp : cross_count_member key1 key2 ([] : List Record) true = some [] := by
      simp [cross_count_member, lookupAll, sortedStr, List.insertionSort]
    rw [hemp] at hc
    obtain rfl := Option.some.inj hc
    simp at hin
  · rw [cross_count_member_eq_of_ne hv1 hv2 true hne] at hc
    obtain rfl := Option.some.inj hc
    obtain ⟨a, ha, hpair⟩ := List.mem_map.mp hin
    have ha1 : a = v1 := congrArg Prod.fst hpair
    subst ha1
    have hinner : (sortedStr vals2.dedup).foldl (innerStep key1 key2 l a true) [] = inner :=
      congrArg Prod.snd hpair
    rw [← hinner, mem_inner_iff hv2 true v2 c] at hvc
    obtain ⟨rfl, _⟩ := hvc
    rw [count_member_true_eq hv1] at hm
    obtain rfl := Option.some.inj hm
    exact ⟨memberCount key1 l a, List.mem_map.mpr ⟨a, ha, rfl⟩,
      crossCount_le_memberCount key1 key2 l a v2⟩

/-! ### The partition identity behind the cross tabulation -/

theorem sum_filterMap_innerEntry (key1 key2 : String) (l : List Record) (v1 : String)
    (u : List String) :
    ((u.filterMap (innerEntry key1 key2 l v1)).map Prod.snd).sum
      = (u.map fun v2 => crossCount key1 key2 l v1 v2).sum := by
  induction u with
  | nil => simp
  | cons a u ih =>
    rw [List.filterMap_cons]
    rcases he : innerEntry key1 key2 l v1 a with _ | x
    · have hc : crossCount key1 key2 l v1 a = 0 := by
        unfold innerEntry at he
        by_cases h0 : 0 < crossCount key1 key2 l v1 a
        · simp [h0] at he
        · omega
      simp [ih, hc]
    · obtain ⟨rfl, _⟩ := innerEntry_eq_some he
      simp [ih]

theorem sum_crossCount_eq_memberCount {key2 : String} (key1 : String) {l : List Record}
    {vals2 : List String} (h2 : lookupAll key2 l = some vals2) (v1 : String) :
    ((sortedStr vals2.dedup).map fun v2 => crossCount key1 key2 l v1 v2).sum
      = memberCount key1 l v1 := by
  have hsub : HasField (l.filter fun d => d.lookup key1 == some v1) key2 := by
    intro d hd
    obtain ⟨w, hw, _⟩ := lookupAll_forall h2 d (List.mem_of_mem_filter hd)
    simp [hw]
  obtain ⟨vals2m, hv2m⟩ := lookupAll_isSome hsub
  have hcc : ∀ v2, crossCount key1 key2 l v1 v2
      = memberCount key2 (l.filter fun d => d.lookup key1 == some v1) v2 := by
    intro v2
    unfold crossCount memberCount
    rw [List.filter_filter]
  have hcnt : ∀ v2, crossCount key1 key2 l v1 v2 = vals2m.count v2 := by
    intro v2
    rw [hcc v2, ← lookupAll_count hv2m v2]
  have hmap : ((sortedStr vals2.dedup).map fun v2 => crossCount key1 key2 l v1 v2)
      = (sortedStr vals2.dedup).map fun v2 => vals2m.count v2 :=
    List.map_congr_left fun v2 _ => hcnt v2
  rw [hmap, ((sortedStr_perm vals2.dedup).map fun v2 => vals2m.count v2).sum_eq]
  have hsubset : ∀ x ∈ vals2m, x ∈ vals2.dedup := by
    intro x hx
    obtain ⟨d, hd, hdx⟩ := lookupAll_mem_exists hv2m hx
    obtain ⟨w, hw, hwmem⟩ := lookupAll_forall h2 d (List.mem_of_mem_filter hd)
    have hwx : w = x := Option.some.inj (hw.symm.trans hdx)
    exact List.mem_dedup.mpr (hwx ▸ hwmem)
  rw [sum_map_count_of_subset vals2.dedup vals2m (List.nodup_dedup vals2) hsubset]
  exact lookupAll_length hv2m

/-- C9: for every distinct primary value, the counts of its nested mapping in
`cross_count_member` sum exactly to the `count_member` count of that primary
value — the cross tabulation partitions each primary value's records. -/
theorem cross_count_partition (key1 key2 : String) (l : List Record)
    (h1 : HasField l key1) (h2 : HasField l key2)
    (cres : List (String × List (String × Nat))) (res : List (String × Nat))
    (hc : cross_count_member key1 key2 l true = some cres)
    (hm : count_member key1 l true = some res)
    (v1 : String) (inner : List (String × Nat)) (c : Nat)
    (hin : (v1, inner) ∈ cres) (hv : (v1, c) ∈ res) :
    (inner.map Prod.snd).sum = c := by
  obtain ⟨vals1, hv1⟩ := lookupAll_isSome h1
  obtain ⟨vals2, hv2⟩ := lookupAll_isSome h2
  by_cases hne : l = []
  · subst hne
    have hemp : cross_count_member key1 key2 ([] : List Record) true = some [] := by
      simp [cross_count_member, lookupAll, sortedStr, List.insertionSort]
    rw [hemp] at hc
    obtain rfl := Option.some.inj hc
    simp at hin
  · rw [cross_count_member_eq_of_ne hv1 hv2 true hne] at hc
    obtain rfl := Option.some.inj hc
    obtain ⟨a, _, hpair⟩ := List.mem_map.mp hin
    have ha1 : a = v1 := congrArg Prod.fst hpair
    subst ha1
    have hinner : (sortedStr vals2.dedup).foldl (innerStep key1 key2 l a true) [] = inner :=
      congrArg Prod.snd hpair
    rw [count_member_true_eq hv1] at hm
    obtain rfl := Option.some.inj hm
    obtain ⟨w, _, hwpair⟩ := List.mem_map.mp hv
    have hw1 : w = a := congrArg Prod.fst hwpair
    subst hw1
    have hcval : memberCount key1 l w = c := congrArg Prod.snd hwpair
    rw [← hinner, foldl_innerStep_true key1 key2 l w _ [], List.nil_append,
      sum_filterMap_innerEntry, sum_crossCount_eq_memberCount key1 hv2 w, hcval]

/-! ### `cross_distinct_key` -/

theorem distinctRows_sound (key1 key2 : String) (l : List Record) :
    ∀ (u : List String),
      (∀ v1 ∈ u, HasField (l.filter fun d => d.lookup key1 == some v1) key2) →
      ∃ res, distinctRows key1 key2 l u = some res ∧
        res.map Prod.fst = u ∧
        ∀ p ∈ res,
          ∃ vs, lookupAll key2 (l.filter fun d => d.lookup key1 == some p.1) = some vs
            ∧ p.2 = sortedStr vs.dedup
  | [], _ => ⟨[], rfl, rfl, by simp⟩
  | v1 :: u, h => by
    obtain ⟨vs2, hvs2⟩ := lookupAll_isSome (h v1 (List.mem_cons_self v1 u))
    obtain ⟨tail, htail, hmap, hrows⟩ :=
      distinctRows_sound key1 key2 l u fun w hw => h w (List.mem_cons_of_mem v1 hw)
    refine ⟨(v1, sortedStr vs2.dedup) :: tail, ?_, ?_, ?_⟩
    · simp [distinctRows, hvs2, htail]
    · simp [hmap]
    · intro p hp
      rcases List.mem_cons.mp hp with hp | hp
      · subst hp; exact ⟨vs2, hvs2, rfl⟩
      · exact hrows p hp

theorem distinctRows_eq_none {key1 key2 : String} {l : List Record} :
    ∀ {u : List String} {v1 : String}, v1 ∈ u →
      lookupAll key2 (l.filter fun d => d.lookup key1 == some v1) = none →
      distinctRows key1 key2 l u = none := by
  intro u
  induction u with
  | nil => intro v1 h _; simp at h
  | cons a u ih =>
    intro v1 hmem hnone
    rcases List.mem_cons.mp hmem with rfl | hmem
    · rcases h2 : distinctRows key1 key2 l u with _ | t <;>
        simp [distinctRows, hnone, h2]
    · rcases hla : lookupAll key2 (l.filter fun d => d.lookup key1 == some a) with _ | vs <;>
        simp [distinctRows, hla, ih hmem hnone]

/-- C7: `cross_distinct_key` maps each distinct primary value (keys strictly
ascending) to exactly the secondary values observed among the records sharing
that primary value, each such list being strictly ascending (hence sorted and
duplicate-free). -/
theorem cross_distinct_key_structure (key1 key2 : String) (l : List Record)
    (h1 : HasField l key1) (h2 : HasField l key2) :
    ∃ res, cross_distinct_key key1 key2 l = some res ∧
      ((res.map Prod.fst).Pairwise (· < ·)) ∧
      (∀ v1, v1 ∈ res.map Prod.fst ↔ ∃ d ∈ l, d.lookup key1 = some v1) ∧
      ∀ v1 s, (v1, s) ∈ res →
        (∀ v2, v2 ∈ s ↔ ∃ d ∈ l, d.lookup key1 = some v1 ∧ d.lookup key2 = some v2)
          ∧ s.Pairwise (· < ·) := by
  obtain ⟨vals1, hv1⟩ := lookupAll_isSome h1
  have hfields : ∀ v1 ∈ sortedStr vals1.dedup,
      HasField (l.filter fun d => d.lookup key1 == some v1) key2 :=
    fun v1 _ d hd => h2 d (List.mem_of_mem_filter hd)
  obtain ⟨res, hres, hmap, hrows⟩ := distinctRows_sound key1 key2 l _ hfields
  refine ⟨res, ?_, ?_, ?_, ?_⟩
  · simp only [cross_distinct_key, hv1]
    exact hres
  · rw [hmap]; exact sortedStr_dedup_lt vals1
  · intro v1; rw [hmap]; exact mem_unique_iff hv1 v1
  · intro v1 s hp
    obtain ⟨vs, hvs, hseq⟩ := hrows (v1, s) hp
    have hs : s = sortedStr vs.dedup := hseq
    subst hs
    constructor
    · intro v2
      rw [mem_sortedStr, List.mem_dedup]
      constructor
      · intro hv2
        obtain ⟨d, hd, hdv⟩ := lookupAll_mem_exists hvs hv2
        have hdl := List.mem_of_mem_filter hd
        have hdk1 : d.lookup key1 = some v1 := by
          have := (List.mem_filter.mp hd).2
          simpa using this
        exact ⟨d, hdl, hdk1, hdv⟩
      · rintro ⟨d, hd, hk1, hk2⟩
        have hdm : d ∈ l.filter fun e => e.lookup key1 == some v1 :=
          List.mem_filter.mpr ⟨hd, by simp [hk1]⟩
        obtain ⟨w, hw, hwmem⟩ := lookupAll_forall hvs d hdm
        have hwv : w = v2 := Option.some.inj (hw.symm.trans hk2)
        exact hwv ▸ hwmem
    · exact sortedStr_dedup_lt vs

/-- C8: on a non-empty collection, a field absent from some record makes each
utility fail with a missing-field error (`none`), surfaced to the caller
rather than recovered: `count_member` for its requested field, and the two
cross utilities when either requested field is absent somewhere. -/
theorem missing_field_error (key key1 key2 : String) (l : List Record) (b : Bool)
    (hne : l ≠ [])
    (hk : ∃ d ∈ l, d.lookup key = none)
    (h12 : (∃ d ∈ l, d.lookup key1 = none) ∨ (∃ d ∈ l, d.lookup key2 = none)) :
    count_member key l b = none ∧ cross_count_member key1 key2 l b = none ∧
      cross_distinct_key key1 key2 l = none := by
  refine ⟨by simp [count_member, lookupAll_eq_none hk], ?_, ?_⟩
  · rcases h12 with h | h
    · rcases hall2 : lookupAll key2 l with _ | v2 <;>
        simp [cross_count_member, lookupAll_eq_none h, hall2]
    · rcases hall1 : lookupAll key1 l with _ | v1 <;>
        simp [cross_count_member, lookupAll_eq_none h, hall1]
  · rcases h12 with h | h
    · simp [cross_distinct_key, lookupAll_eq_none h]
    · obtain ⟨e, he, henone⟩ := h
      rcases hall1 : lookupAll key1 l with _ | vals1
      · simp [cross_distinct_key, hall1]
      · obtain ⟨v1, hv1e, hv1mem⟩ := lookupAll_forall hall1 e he
        have hem : e ∈ l.filter fun d => d.lookup key1 == some v1 :=
          List.mem_filter.mpr ⟨he, by simp [hv1e]⟩
        have hnone2 : lookupAll key2 (l.filter fun d => d.lookup key1 == some v1) = none :=
          lookupAll_eq_none ⟨e, hem, henone⟩
        have humem : v1 ∈ sortedStr vals1.dedup :=
          mem_sortedStr.mpr (List.mem_dedup.mpr hv1mem)
        simp [cross_distinct_key, hall1, distinctRows_eq_none humem hnone2]

/-! ### Concrete sample data: the spec's worked example -/

/-- The record collection from the spec's example section. -/
def sampleRecs : List Record :=
  [[("party", "A"), ("province", "ON")],
   [("party", "A"), ("province", "ON")],
   [("party", "B"), ("province", "QC")]]

theorem count_member_sum_length_witness :
    ∃ res, count_member "party" sampleRecs true = some res ∧
      (res.map Prod.snd).sum = sampleRecs.length :=
  count_member_sum_length "party" sampleRecs true (by decide)
    (by unfold HasField; decide)

theorem count_member_ordering_witness :
    (([("A", 2), ("B", 1)] : List (String × Nat)).Pairwise fun a b => a.1 < b.1) ∧
    (([("A", 2), ("B", 1)] : List (String × Nat)).Pairwise fun a b => b.2 ≤ a.2) :=
  ⟨(count_member_ordering "party" sampleRecs (by unfold HasField; decide)).1
      [("A", 2), ("B", 1)]
      (by simp +decide [count_member, lookupAll, memberCount, sortedStr, sortDescBySnd,
        List.insertionSort, List.orderedInsert, sampleRecs]),
   (count_member_ordering "party" sampleRecs (by unfold HasField; decide)).2
      [("A", 2), ("B", 1)]
      (by simp +decide [count_member, lookupAll, memberCount, sortedStr, sortDescBySnd,
        List.insertionSort, List.orderedInsert, sampleRecs])⟩

theorem count_member_flag_contents_witness :
    ∃ r, count_member "party" sampleRecs false = some r ∧
      r.Perm [("A", 2), ("B", 1)] :=
  count_member_flag_contents "party" sampleRecs [("A", 2), ("B", 1)]
    (by simp +decide [count_member, lookupAll, memberCount, sortedStr, sortDescBySnd,
      List.insertionSort, List.orderedInsert, sampleRecs])

theorem cross_count_member_structure_witness :
    ∃ cres, cross_count_member "province" "party" sampleRecs true = some cres ∧
      ((cres.map Prod.fst).Pairwise (· < ·)) ∧
      (∀ v1, v1 ∈ cres.map Prod.fst ↔ ∃ d ∈ sampleRecs, d.lookup "province" = some v1) ∧
      (∀ v1 inner, (v1, inner) ∈ cres → ∀ v2 c,
        ((v2, c) ∈ inner ↔ c = crossCount "province" "party" sampleRecs v1 v2 ∧ 0 < c)) :=
  cross_count_member_structure "province" "party" sampleRecs true
    (by unfold HasField; decide) (by unfold HasField; decide)

theorem cross_count_member_inner_ordering_witness :
    (([("A", 2)] : List (String × Nat)).Pairwise fun a b => a.1 < b.1) ∧
    (([("B", 1)] : List (String × Nat)).Pairwise fun a b => b.2 ≤ a.2) :=
  ⟨(cross_count_member_inner_ordering "province" "party" sampleRecs
      (by unfold HasField; decide) (by unfold HasField; decide)).1
      [("ON", [("A", 2)]), ("QC", [("B", 1)])]
      (by simp +decide [cross_count_member, lookupAll, crossCount, innerStep, sortedStr,
        sortDescBySnd, List.insertionSort, List.orderedInsert, sampleRecs])
      ("ON", [("A", 2)]) (by decide),
   (cross_count_member_inner_ordering "province" "party" sampleRecs
      (by unfold HasField; decide) (by unfold HasField; decide)).2
      [("ON", [("A", 2)]), ("QC", [("B", 1)])]
      (by simp +decide [cross_count_member, lookupAll, crossCount, innerStep, sortedStr,
        sortDescBySnd, List.insertionSort, List.orderedInsert, sampleRecs])
      ("QC", [("B", 1)]) (by decide)⟩

theorem cross_count_le_single_witness :
    ∃ k, ("ON", k) ∈ ([("ON", 2), ("QC", 1)] : List (String × Nat)) ∧ 2 ≤ k :=
  cross_count_le_single "province" "party" sampleRecs
    (by unfold HasField; decide) (by unfold HasField; decide)
    [("ON", [("A", 2)]), ("QC", [("B", 1)])] [("ON", 2), ("QC", 1)]
    (by simp +decide [cross_count_member, lookupAll, crossCount, innerStep, sortedStr,
      sortDescBySnd, List.insertionSort, List.orderedInsert, sampleRecs])
    (by simp +decide [count_member, lookupAll, memberCount, sortedStr, sortDescBySnd,
      List.insertionSort, List.orderedInsert, sampleRecs])
    "ON" [("A", 2)] (by decide) "A" 2 (by decide)

theorem cross_count_partition_witness :
    (([("A", 2)] : List (String × Nat)).map Prod.snd).sum = 2 :=
  cross_count_partition "province" "party" sampleRecs
    (by unfold HasField; decide) (by unfold HasField; decide)
    [("ON", [("A", 2)]), ("QC", [("B", 1)])] [("ON", 2), ("QC", 1)]
    (by simp +decide [cross_count_member, lookupAll, crossCount, innerStep, sortedStr,
      sortDescBySnd, List.insertionSort, List.orderedInsert, sampleRecs])
    (by simp +decide [count_member, lookupAll, memberCount, sortedStr, sortDescBySnd,
      List.insertionSort, List.orderedInsert, sampleRecs])
    "ON" [("A", 2)] 2 (by decide) (by decide)

theorem cross_distinct_key_structure_witness :
    ∃ res, cross_distinct_key "party" "province" sampleRecs = some res ∧
      ((res.map Prod.fst).Pairwise (· < ·)) ∧
      (∀ v1, v1 ∈ res.map Prod.fst ↔ ∃ d ∈ sampleRecs, d.lookup "party" = some v1) ∧
      ∀ v1 s, (v1, s) ∈ res →
        (∀ v2, v2 ∈ s ↔
          ∃ d ∈ sampleRecs, d.lookup "party" = some v1 ∧ d.lookup "province" = some v2)
          ∧ s.Pairwise (· < ·) :=
  cross_distinct_key_structure "party" "province" sampleRecs
    (by unfold HasField; decide) (by unfold HasField; decide)

theorem missing_field_error_witness :
    count_member "province" [[("party", "A")]] true = none ∧
    cross_count_member "province" "party" [[("party", "A")]] true = none ∧
    cross_distinct_key "province" "party" [[("party", "A")]] = none :=
  missing_field_error "province" "province" "party" [[("party", "A")]] true
    (by decide) (by decide) (Or.inl (by decide))
